import Mathlib

/-!
Verification of the conversation-state and text-trimming logic of
`chatbot_demo.py`: transcript rendering, response sanitization, menu
selection and the canned/interactive session loops.

Text is modelled as `List Char`; Python's `str.strip()` / `str.lower()` /
`"sep" in s` / `s.split(sep)[0]` are embedded as executable functions on
character lists.
-/

/-- Character strings from the Python source, as lists of characters. -/
abbrev Text := List Char

/-- Whitespace characters removed by Python's `str.strip()` (ASCII range). -/
def isPySpace (c : Char) : Bool :=
  (c == ' ') || (c == '\t') || (c == '\n') || (c == '\r') || (c == '\x0b') || (c == '\x0c')

/-- Leading-whitespace removal, the left half of Python's `str.strip()`. -/
def stripLeft (s : Text) : Text := s.dropWhile isPySpace

/-- Trailing-whitespace removal, the right half of Python's `str.strip()`. -/
def stripRight (s : Text) : Text := (s.reverse.dropWhile isPySpace).reverse

/-- Python's `s.strip()`: remove leading and trailing whitespace. -/
def pyStrip (s : Text) : Text := stripRight (stripLeft s)

/-- ASCII lowercasing of one character, as done by Python's `str.lower()`. -/
def pyLowerChar (c : Char) : Char :=
  if 'A' ≤ c ∧ c ≤ 'Z' then Char.ofNat (c.toNat + 32) else c

/-- Python's `s.lower()` on the command strings compared in the loop. -/
def pyLower (s : Text) : Text := s.map pyLowerChar

/-- Python's substring test `sep in s` (for nonempty `sep`). -/
def containsSub (sep : Text) : Text → Bool
  | [] => sep.isPrefixOf []
  | c :: t => sep.isPrefixOf (c :: t) || containsSub sep t

/-- Python's `s.split(sep)[0]` (for nonempty `sep`): the part of `s`
before the first occurrence of `sep`, or all of `s` if `sep` is absent. -/
def takeBefore (sep : Text) : Text → Text
  | [] => []
  | c :: t => if sep.isPrefixOf (c :: t) then [] else c :: takeBefore sep t

/-- The marker `"Human:"` at which generated text is truncated
(`chatbot_demo.py` lines 47 and 106). -/
def humanMarker : Text := ("Human:").data

/-- The blank-line section break `"\n\n"` at which generated text is
truncated (`chatbot_demo.py` lines 49 and 108). -/
def sectionBreak : Text := ['\n', '\n']

/-- The marker-truncation stage of the sanitizer, as a standalone function:
`if "Human:" in response: response = response.split("Human:")[0].strip()`. -/
def markerTruncate (s : Text) : Text :=
  if containsSub humanMarker s then pyStrip (takeBefore humanMarker s) else s

/-- The break-truncation stage of the sanitizer, as a standalone function:
`if "\n\n" in response: response = response.split("\n\n")[0].strip()`. -/
def breakTruncate (s : Text) : Text :=
  if containsSub sectionBreak s then pyStrip (takeBefore sectionBreak s) else s

/-- The response sanitizer, transcribed line by line from
`chatbot_demo.py` lines 44-50 (identical at lines 103-109):
strip the raw generated text, truncate at `"Human:"` if present
(stripping again), then truncate at `"\n\n"` if present (stripping again). -/
def sanitize (raw : Text) : Text :=
  let r0 := pyStrip raw
  let r1 := if containsSub humanMarker r0 then pyStrip (takeBefore humanMarker r0) else r0
  let r2 := if containsSub sectionBreak r1 then pyStrip (takeBefore sectionBreak r1) else r1
  r2

/-- The role tag of one conversation turn. -/
inductive Role where
  | human
  | assistant
deriving DecidableEq

/-- One conversation turn: a role tag and the turn's text. -/
structure Turn where
  role : Role
  content : Text
deriving DecidableEq

/-- The label used for a role in the transcript lines. -/
def roleName : Role → Text
  | Role.human => ("Human").data
  | Role.assistant => ("Assistant").data

/-- The transcript line for one turn: `f"Human: {text}"` respectively
`f"Assistant: {text}"` (`chatbot_demo.py` lines 35, 53, 94, 112). -/
def turnLine (t : Turn) : Text := roleName t.role ++ (": ").data ++ t.content

/-- Python's `"\n".join(lines)`. -/
def joinNL : List Text → Text
  | [] => []
  | [l] => l
  | l :: l' :: ls => l ++ '\n' :: joinNL (l' :: ls)

/-- The trailing cue for the next inference call, `"Assistant:"`. -/
def cueText : Text := ("Assistant:").data

/-- Prompt construction from the conversation-history lines:
`"\n".join(conversation_history) + "\nAssistant:"`
(`chatbot_demo.py` lines 36 and 95). -/
def render (lines : List Text) : Text := joinNL lines ++ '\n' :: cueText

/-- Prompt construction from a transcript of turns: the history list holds
the formatted line of each turn, in append order. -/
def renderT (h : List Turn) : Text := render (h.map turnLine)

/-- The reserved commands that end the interactive loop
(`chatbot_demo.py` line 81). -/
def quitCommands : List Text := [("quit").data, ("exit").data, ("q").data]

/-- Test for a loop-ending command: `user_input.lower() in ['quit', 'exit', 'q']`,
applied to the already-stripped input line. -/
def isQuitCmd (u : Text) : Bool := quitCommands.contains (pyLower u)

/-- Test for the clear command: `user_input.lower() == 'clear'`,
applied to the already-stripped input line. -/
def isClearCmd (u : Text) : Bool := pyLower u == ("clear").data

/-- One session of the interactive loop (`chatbot_demo.py` lines 73-115),
with the external inference call `llm.generate` abstracted as `gen`.
The input script is the list of lines read from standard input; the list
running out models `EOFError` / `KeyboardInterrupt` (both are handled by
the same `except` clause and break the loop). Each line is stripped, then
checked against the quit commands, the clear command, and emptiness; a
conversational line appends a Human turn, sends the rendered prompt to
`gen`, sanitizes the reply and appends it as an Assistant turn.
Returns the final transcript together with, for each inference call made,
the pair of the prompt sent and the transcript from which it was built. -/
def interactiveRun (gen : Text → Text) : List Text → List Turn → List Turn × List (Text × List Turn)
  | [], h => (h, [])
  | raw :: rest, h =>
    let u := pyStrip raw
    if isQuitCmd u then (h, [])
    else if isClearCmd u then interactiveRun gen rest []
    else if u.isEmpty then interactiveRun gen rest h
    else
      let h1 := h ++ [⟨Role.human, u⟩]
      let resp := sanitize (gen (renderT h1))
      let h2 := h1 ++ [⟨Role.assistant, resp⟩]
      let r := interactiveRun gen rest h2
      (r.1, (renderT h1, h1) :: r.2)

/-- One session of the canned loop (`chatbot_demo.py` lines 29-56) over a
list of canned inputs, with `llm.generate` abstracted as `gen`. Each input
is appended verbatim as a Human turn, the rendered prompt is sent to `gen`,
and the sanitized reply is appended as an Assistant turn. Returns the final
transcript together with, for each inference call, the prompt sent and the
transcript from which it was built. -/
def cannedRun (gen : Text → Text) : List Text → List Turn → List Turn × List (Text × List Turn)
  | [], h => (h, [])
  | input :: rest, h =>
    let h1 := h ++ [⟨Role.human, input⟩]
    let resp := sanitize (gen (renderT h1))
    let h2 := h1 ++ [⟨Role.assistant, resp⟩]
    let r := cannedRun gen rest h2
    (r.1, (renderT h1, h1) :: r.2)

/-- The fixed canned prompts (`chatbot_demo.py` lines 23-27). -/
def cannedInputs : List Text :=
  [("Hello, how are you?").data,
   ("What is the capital of France?").data,
   ("Tell me a short joke").data]

/-- One entry of the model-selection menu (`chatbot_demo.py` lines 119-138). -/
structure ModelInfo where
  name : Text
  path : Text
  maxLen : Nat
deriving DecidableEq

/-- Menu entry `"1"`: the default model. -/
def optModel : ModelInfo :=
  ⟨("facebook/opt-125m").data, ("facebook/opt-125m").data, 512⟩

/-- Menu entry `"2"`. -/
def qwenModel : ModelInfo :=
  ⟨("Qwen2.5-1.5B-Instruct").data, ("/home/sameer/git/LLMs/Qwen2.5-1.5B-Instruct").data, 2048⟩

/-- Menu entry `"3"`. -/
def smolModel : ModelInfo :=
  ⟨("SmolLM-1.7B-Instruct").data, ("/home/sameer/git/LLMs/SmolLM-1.7B-Instruct").data, 2048⟩

/-- The `models` dictionary, keys in order. -/
def modelTable : List (Text × ModelInfo) :=
  [(("1").data, optModel), (("2").data, qwenModel), (("3").data, smolModel)]

/-- The line read for a menu selection: `input(...).strip()`, with `none`
modelling `EOFError` / `KeyboardInterrupt`, which the code replaces by the
default choice `"1"` (`chatbot_demo.py` lines 146-150 and 197-201). -/
def menuChoiceOf (inp : Option Text) : Text :=
  match inp with
  | none => ("1").data
  | some s => pyStrip s

/-- The fallback of model selection: an entered choice that is not a key of
the `models` dictionary is replaced by `"1"` (`chatbot_demo.py` lines 152-155). -/
def resolveModelChoice (choice : Text) : Text :=
  if (modelTable.map Prod.fst).contains choice then choice else ("1").data

/-- The model selected for a given standard-input line (or end of input):
`models[model_choice]` after the fallback. -/
def selectModel (inp : Option Text) : ModelInfo :=
  (modelTable.lookup (resolveModelChoice (menuChoiceOf inp))).getD optModel

/-- Mode selection (`chatbot_demo.py` lines 203-209): the interactive loop
runs exactly when the stripped choice equals `"2"`; every other choice
falls back to the canned demo. -/
def modeIsInteractive (choice : Text) : Bool := choice == ("2").data

/-- The observable outcome of `main` after model selection: either the
model failed to initialize and the error was reported (`chatbot_demo.py`
lines 172-176, the `except` clause that prints and returns), or one of the
two demo loops ran to completion. -/
inductive DemoOutcome where
  | initFailed (msg : Text)
  | ranCanned (final : List Turn) (calls : List (Text × List Turn))
  | ranInteractive (final : List Turn) (calls : List (Text × List Turn))
deriving DecidableEq

/-- The driver from model initialization onward (`chatbot_demo.py`
lines 164-209): `initResult` is the single result of the `LLM(...)`
constructor call — an exception message or a working generation function.
On failure the error is reported and `main` returns at once; otherwise the
mode choice selects which loop runs, each starting from an empty transcript. -/
def mainOutcome (initResult : Except Text (Text → Text)) (modeInp : Option Text)
    (script : List Text) : DemoOutcome :=
  match initResult with
  | Except.error e => DemoOutcome.initFailed e
  | Except.ok gen =>
    if modeIsInteractive (menuChoiceOf modeInp) then
      let r := interactiveRun gen script []
      DemoOutcome.ranInteractive r.1 r.2
    else
      let r := cannedRun gen cannedInputs []
      DemoOutcome.ranCanned r.1 r.2

/-- The role required at position `n` of an alternating transcript that
starts with a Human turn. -/
def roleAt (n : Nat) : Role := if n % 2 = 0 then Role.human else Role.assistant

/-- The role sequence of a well-formed transcript of length `n`:
Human, Assistant, Human, Assistant, ... -/
def roleP (n : Nat) : List Role := (List.range n).map roleAt

/-- The Transcript invariant: turns alternate starting with Human. -/
def alternatesHuman (h : List Turn) : Prop := h.map Turn.role = roleP h.length

/-- The invariant holding whenever the loops are about to read input:
the transcript alternates starting with Human and is complete (even
length, i.e. every Human turn has been answered). -/
def entryInv (h : List Turn) : Prop := alternatesHuman h ∧ h.length % 2 = 0

/-- The role of the most recently appended turn. -/
def lastRole (h : List Turn) : Option Role := (h.map Turn.role).getLast?

/-! ### Basic facts about prefixes, suffixes and substring search -/

theorem takeIsPref (n : Nat) (l : Text) : l.take n <+: l :=
  ⟨l.drop n, List.take_append_drop n l⟩

theorem prefExtend {l a : Text} (b : Text) (h : l <+: a) : l <+: a ++ b := by
  obtain ⟨t, ht⟩ := h
  exact ⟨t ++ b, by rw [← List.append_assoc, ht]⟩

theorem prefAppendLeft {l a b : Text} (h : l <+: a ++ b) (hl : l.length ≤ a.length) :
    l <+: a := by
  obtain ⟨t, ht⟩ := h
  have h2 : List.take l.length (a ++ b) = l := by
    rw [← ht]
    exact List.take_left l t
  have h3 : List.take l.length (a ++ b) = List.take l.length a := by
    rw [List.take_append_eq_append_take, Nat.sub_eq_zero_of_le hl, List.take_zero,
      List.append_nil]
  have h4 : l = List.take l.length a := h2.symm.trans h3
  refine ⟨List.drop l.length a, ?_⟩
  calc l ++ List.drop l.length a
      = List.take l.length a ++ List.drop l.length a := by rw [← h4]
    _ = a := List.take_append_drop _ _

theorem sufAppendRight {t a b : Text} (h : t <:+ a ++ b) (hl : t.length ≤ b.length) :
    t <:+ b := by
  obtain ⟨u, hu⟩ := h
  have hlen : a.length ≤ u.length := by
    have hL := congrArg List.length hu
    simp only [List.length_append] at hL
    omega
  refine ⟨List.drop a.length u, ?_⟩
  have h2 : List.drop a.length (u ++ t) = List.drop a.length u ++ t := by
    rw [List.drop_append_eq_append_drop, Nat.sub_eq_zero_of_le hlen, List.drop_zero]
  have h3 : List.drop a.length (a ++ b) = b := by
    rw [List.drop_append_eq_append_drop, List.drop_length, Nat.sub_self, List.drop_zero,
      List.nil_append]
  rw [← h3, ← hu, h2]

theorem sufSplitLong {t a b : Text} (h : t <:+ a ++ b) (hl : b.length ≤ t.length) :
    ∃ t0, t0 <:+ a ∧ t = t0 ++ b := by
  obtain ⟨u, hu⟩ := h
  have hlen : u.length ≤ a.length := by
    have hL := congrArg List.length hu
    simp only [List.length_append] at hL
    omega
  refine ⟨List.drop u.length a, ⟨List.take u.length a, List.take_append_drop _ _⟩, ?_⟩
  have h2 : List.drop u.length (u ++ t) = t := by
    rw [List.drop_append_eq_append_drop, List.drop_length, Nat.sub_self, List.drop_zero,
      List.nil_append]
  have h3 : List.drop u.length (a ++ b) = List.drop u.length a ++ b := by
    rw [List.drop_append_eq_append_drop, Nat.sub_eq_zero_of_le hlen, List.drop_zero]
  rw [← h2, hu, h3]

theorem isPrefixOfIff : ∀ (l s : Text), l.isPrefixOf s = true ↔ l <+: s
  | [], s => by simp [List.isPrefixOf]
  | a :: l, [] => by simp [List.isPrefixOf]
  | a :: l, b :: s => by
    simp [List.isPrefixOf, List.cons_prefix_cons, isPrefixOfIff l s, Bool.and_eq_true,
      beq_iff_eq]

theorem containsIffIsInfix : ∀ (sep s : Text), containsSub sep s = true ↔ sep <:+: s
  | sep, [] => by
    simp [containsSub, isPrefixOfIff, List.infix_nil, List.prefix_nil]
  | sep, c :: t => by
    simp [containsSub, isPrefixOfIff, List.infix_cons_iff, containsIffIsInfix sep t,
      Bool.or_eq_true]

theorem containsOfInfix {sep u v : Text} (h : u <:+: v) (hc : containsSub sep u = true) :
    containsSub sep v = true := by
  rw [containsIffIsInfix] at hc ⊢
  exact hc.trans h

theorem containsLenLe {sep s : Text} (h : containsSub sep s = true) :
    sep.length ≤ s.length := by
  obtain ⟨a, b, hab⟩ := (containsIffIsInfix sep s).mp h
  have hL := congrArg List.length hab
  simp only [List.length_append] at hL
  omega

theorem takeBeforePref (sep : Text) : ∀ s : Text, takeBefore sep s <+: s
  | [] => by simp [takeBefore]
  | c :: t => by
    rw [takeBefore]
    split
    · exact List.nil_prefix
    · exact (List.cons_prefix_cons).mpr ⟨rfl, takeBeforePref sep t⟩

theorem takeBeforeEqSelf (sep : Text) : ∀ s : Text, containsSub sep s = false → takeBefore sep s = s
  | [], _ => by simp [takeBefore]
  | c :: t, h => by
    rw [containsSub, Bool.or_eq_false_iff] at h
    rw [takeBefore, if_neg (by simp [h.1]), takeBeforeEqSelf sep t h.2]

theorem takeBeforeSplit (sep : Text) : ∀ s : Text, containsSub sep s = true →
    ∃ q, s = takeBefore sep s ++ sep ++ q
  | [], h => by
    rw [containsSub] at h
    have hsep : sep = [] := List.prefix_nil.mp ((isPrefixOfIff sep []).mp h)
    exact ⟨[], by simp [takeBefore, hsep]⟩
  | c :: t, h => by
    rw [takeBefore]
    by_cases hp : sep.isPrefixOf (c :: t) = true
    · obtain ⟨u, hu⟩ := (isPrefixOfIff sep (c :: t)).mp hp
      exact ⟨u, by simp [hp, hu]⟩
    · have hc : containsSub sep t = true := by
        rw [containsSub, Bool.or_eq_true] at h
        rcases h with h1 | h1
        · exact absurd h1 hp
        · exact h1
      obtain ⟨q, hq⟩ := takeBeforeSplit sep t hc
      refine ⟨q, ?_⟩
      rw [if_neg hp]
      simp only [List.cons_append]
      rw [← hq]

theorem notContainsTakeBefore (sep : Text) (hne : sep ≠ []) :
    ∀ s : Text, containsSub sep (takeBefore sep s) = false
  | [] => by
    cases sep with
    | nil => exact absurd rfl hne
    | cons a l => simp [takeBefore, containsSub, List.isPrefixOf]
  | c :: t => by
    rw [takeBefore]
    by_cases hp : sep.isPrefixOf (c :: t) = true
    · rw [if_pos hp]
      cases sep with
      | nil => exact absurd rfl hne
      | cons a l => simp [containsSub, List.isPrefixOf]
    · rw [if_neg hp, containsSub, Bool.or_eq_false_iff]
      refine ⟨?_, notContainsTakeBefore sep hne t⟩
      by_contra hq
      have hq' : sep <+: c :: takeBefore sep t :=
        (isPrefixOfIff _ _).mp (Bool.not_eq_false _ ▸ hq)
      have hpre : c :: takeBefore sep t <+: c :: t :=
        (List.cons_prefix_cons).mpr ⟨rfl, takeBeforePref sep t⟩
      exact hp ((isPrefixOfIff _ _).mpr (hq'.trans hpre))

theorem takeBeforeAppendLeft (sep : Text) : ∀ (a : Text), containsSub sep a = true →
    ∀ b : Text, takeBefore sep (a ++ b) = takeBefore sep a
  | [], h, b => by
    have hsep : sep = [] := by
      rw [containsSub] at h
      exact List.prefix_nil.mp ((isPrefixOfIff sep []).mp h)
    subst hsep
    cases b with
    | nil => rfl
    | cons c t => simp [takeBefore, List.isPrefixOf]
  | c :: t, h, b => by
    rw [List.cons_append, takeBefore, takeBefore]
    by_cases hp : sep.isPrefixOf (c :: t) = true
    · have hp2 : sep.isPrefixOf (c :: (t ++ b)) = true := by
        rw [isPrefixOfIff]
        have h1 := (isPrefixOfIff sep (c :: t)).mp hp
        have h2 := prefExtend b h1
        rwa [List.cons_append] at h2
      rw [if_pos hp, if_pos hp2]
    · have hc : containsSub sep t = true := by
        rw [containsSub, Bool.or_eq_true] at h
        rcases h with h1 | h1
        · exact absurd h1 hp
        · exact h1
      have hp2 : sep.isPrefixOf (c :: (t ++ b)) = false := by
        by_contra hq
        have hq1 : sep <+: c :: (t ++ b) :=
          (isPrefixOfIff _ _).mp (Bool.not_eq_false _ ▸ hq)
        have hq2 : sep <+: (c :: t) ++ b := by rwa [List.cons_append]
        have hlen : sep.length ≤ (c :: t).length := by
          have := containsLenLe hc
          simp only [List.length_cons]
          omega
        exact hp ((isPrefixOfIff _ _).mpr (prefAppendLeft hq2 hlen))
      rw [if_neg hp, if_neg (by simp [hp2]), takeBeforeAppendLeft sep t hc b]

theorem takeBeforeAppendNoStart (sep b : Text) :
    ∀ a : Text, (∀ t, t ≠ [] → t <:+ a → sep.isPrefixOf (t ++ b) = false) →
    takeBefore sep (a ++ b) = a ++ takeBefore sep b
  | [], _ => by simp
  | c :: a', hcond => by
    rw [List.cons_append, takeBefore]
    have hp : sep.isPrefixOf (c :: (a' ++ b)) = false := by
      have h1 := hcond (c :: a') (by simp) (List.suffix_refl _)
      rwa [List.cons_append] at h1
    rw [if_neg (by simp [hp])]
    rw [takeBeforeAppendNoStart sep b a' (fun t ht hs => hcond t ht (hs.trans (List.suffix_cons c a')))]
    rw [List.cons_append]

theorem memOfPrefAppendCons {l a b : Text} {c : Char} (h : l <+: a ++ c :: b)
    (hl : a.length < l.length) : c ∈ l := by
  obtain ⟨u, hu⟩ := h
  have h2 : List.drop a.length (a ++ c :: b) = c :: b := by
    rw [List.drop_append_eq_append_drop, List.drop_length, Nat.sub_self, List.drop_zero,
      List.nil_append]
  have h3 : List.drop a.length (l ++ u) = List.drop a.length l ++ u := by
    rw [List.drop_append_eq_append_drop, Nat.sub_eq_zero_of_le (Nat.le_of_lt hl),
      List.drop_zero]
  have h4 : List.drop a.length l ++ u = c :: b := by rw [← h3, hu, h2]
  have h5 : c ∈ List.drop a.length l := by
    cases hd : List.drop a.length l with
    | nil =>
      have := congrArg List.length hd
      simp only [List.length_drop, List.length_nil] at this
      omega
    | cons d w =>
      rw [hd] at h4
      have hc : d = c := by
        have := congrArg (fun x => x.head?) h4
        simpa using this
      rw [hc]
      exact List.mem_cons_self _ _
  exact (List.drop_suffix a.length l).subset h5

/-! ### Facts about whitespace stripping -/

theorem stripRightPref (s : Text) : stripRight s <+: s := by
  obtain ⟨u, hu⟩ : s.reverse.dropWhile isPySpace <:+ s.reverse :=
    List.dropWhile_suffix isPySpace
  have h2 := congrArg List.reverse hu
  rw [List.reverse_append, List.reverse_reverse] at h2
  exact ⟨u.reverse, h2⟩

theorem stripLeftSuffixOf (s : Text) : stripLeft s <:+ s :=
  List.dropWhile_suffix isPySpace

theorem pyStripIsInfixOf (s : Text) : pyStrip s <:+: s :=
  (stripRightPref (stripLeft s)).isInfix.trans (stripLeftSuffixOf s).isInfix

theorem stripRightEqNilIff (s : Text) : stripRight s = [] ↔ ∀ c ∈ s, isPySpace c = true := by
  simp [stripRight, List.reverse_eq_nil_iff, List.dropWhile_eq_nil_iff, List.mem_reverse]

theorem dropWhileAppendAllTrue {p : Char → Bool} :
    ∀ (u : Text), (∀ c ∈ u, p c = true) → ∀ v, List.dropWhile p (u ++ v) = List.dropWhile p v
  | [], _, v => rfl
  | c :: u', h, v => by
    rw [List.cons_append, List.dropWhile_cons, if_pos (h c (List.mem_cons_self c u')),
      dropWhileAppendAllTrue u' (fun d hd => h d (List.mem_cons_of_mem c hd)) v]

theorem dropWhileAppendNe {p : Char → Bool} :
    ∀ (u : Text), List.dropWhile p u ≠ [] → ∀ v, List.dropWhile p (u ++ v) = List.dropWhile p u ++ v
  | [], h, _ => absurd rfl h
  | c :: u', h, v => by
    have hcons : List.dropWhile p (c :: u') = if p c = true then List.dropWhile p u' else c :: u' :=
      List.dropWhile_cons
    by_cases hp : p c = true
    · rw [List.cons_append, List.dropWhile_cons, if_pos hp, hcons, if_pos hp]
      rw [hcons, if_pos hp] at h
      exact dropWhileAppendNe u' h v
    · rw [List.cons_append, List.dropWhile_cons, if_neg hp, hcons, if_neg hp, List.cons_append]

theorem stripRightAppendWs {b : Text} (hb : ∀ c ∈ b, isPySpace c = true) (a : Text) :
    stripRight (a ++ b) = stripRight a := by
  unfold stripRight
  rw [List.reverse_append,
    dropWhileAppendAllTrue b.reverse (fun c hc => hb c (List.mem_reverse.mp hc)) a.reverse]

theorem stripRightAppendNe {b : Text} (hb : stripRight b ≠ []) (a : Text) :
    stripRight (a ++ b) = a ++ stripRight b := by
  have hne : List.dropWhile isPySpace b.reverse ≠ [] := by
    intro hh
    exact hb (by simp [stripRight, hh])
  unfold stripRight
  rw [List.reverse_append, dropWhileAppendNe b.reverse hne a.reverse, List.reverse_append,
    List.reverse_reverse]

theorem stripLeftConsNoWs {c : Char} (hc : isPySpace c = false) (t : Text) :
    stripLeft (c :: t) = c :: t := by
  simp [stripLeft, List.dropWhile_cons, hc]

theorem stripLeftHeadFalse : ∀ (s : Text) {c : Char} {t : Text},
    stripLeft s = c :: t → isPySpace c = false
  | [], c, t, h => by simp [stripLeft] at h
  | d :: s', c, t, h => by
    rw [stripLeft, List.dropWhile_cons] at h
    by_cases hp : isPySpace d = true
    · rw [if_pos hp] at h
      exact stripLeftHeadFalse s' h
    · rw [if_neg hp] at h
      injection h with h1 h2
      rw [← h1]
      simpa using hp

theorem stripLeftOfPyStrip (s : Text) : stripLeft (pyStrip s) = pyStrip s := by
  unfold pyStrip
  cases h : stripRight (stripLeft s) with
  | nil => rfl
  | cons c t =>
    obtain ⟨u, hu⟩ := stripRightPref (stripLeft s)
    rw [h] at hu
    have hsl : stripLeft s = c :: (t ++ u) := by rw [← hu, List.cons_append]
    exact stripLeftConsNoWs (stripLeftHeadFalse s hsl) t

theorem pyStripOfNoWsHead {c : Char} (hc : isPySpace c = false) (t : Text) :
    pyStrip (c :: t) = stripRight (c :: t) := by
  unfold pyStrip
  rw [stripLeftConsNoWs hc]

theorem containsDropWhile {sep : Text} {p : Char → Bool}
    (hps : ∀ c t, p c = true → sep.isPrefixOf (c :: t) = false) :
    ∀ s : Text, containsSub sep (List.dropWhile p s) = containsSub sep s
  | [] => rfl
  | c :: s' => by
    rw [List.dropWhile_cons]
    by_cases hp : p c = true
    · rw [if_pos hp, containsDropWhile hps s', containsSub, hps c s' hp, Bool.false_or]
    · rw [if_neg hp]

theorem containsRevIff (sep s : Text) :
    containsSub sep.reverse s.reverse = true ↔ containsSub sep s = true := by
  rw [containsIffIsInfix, containsIffIsInfix]
  exact List.reverse_infix

/-! ### Facts specific to the human-turn marker and the section break -/

theorem boolEqOfIff {a b : Bool} (h : a = true ↔ b = true) : a = b := by
  cases a <;> cases b <;> simp_all

theorem isPrefixOfConsFalse {a c : Char} {l t : Text} (h : (a == c) = false) :
    (a :: l).isPrefixOf (c :: t) = false := by
  rw [List.isPrefixOf, h, Bool.false_and]

theorem noWsHeadNotPrefWs {a : Char} {l : Text} (ha : isPySpace a = false)
    {c : Char} (hc : isPySpace c = true) (t : Text) :
    (a :: l).isPrefixOf (c :: t) = false := by
  refine isPrefixOfConsFalse ?_
  rw [beq_eq_false_iff_ne]
  intro he
  subst he
  exact absurd hc (by simp [ha])

theorem markerPrefFalseOfWs {c : Char} (hc : isPySpace c = true) (t : Text) :
    humanMarker.isPrefixOf (c :: t) = false := by
  have hm : humanMarker = 'H' :: ("uman:").data := by decide
  rw [hm]
  exact noWsHeadNotPrefWs (by decide) hc t

theorem markerRevPrefFalseOfWs {c : Char} (hc : isPySpace c = true) (t : Text) :
    humanMarker.reverse.isPrefixOf (c :: t) = false := by
  have hm : humanMarker.reverse = ':' :: ("namuH").data := by decide
  rw [hm]
  exact noWsHeadNotPrefWs (by decide) hc t

theorem containsMarkerStripLeft (s : Text) :
    containsSub humanMarker (stripLeft s) = containsSub humanMarker s :=
  containsDropWhile (fun c t hc => markerPrefFalseOfWs hc t) s

theorem containsMarkerStripRight (s : Text) :
    containsSub humanMarker (stripRight s) = containsSub humanMarker s := by
  apply boolEqOfIff
  rw [← containsRevIff humanMarker (stripRight s), ← containsRevIff humanMarker s]
  have h2 : (stripRight s).reverse = List.dropWhile isPySpace s.reverse := by
    rw [stripRight, List.reverse_reverse]
  rw [h2, containsDropWhile (fun c t hc => markerRevPrefFalseOfWs hc t) s.reverse]

theorem containsMarkerPyStrip (s : Text) :
    containsSub humanMarker (pyStrip s) = containsSub humanMarker s := by
  unfold pyStrip
  rw [containsMarkerStripRight (stripLeft s), containsMarkerStripLeft s]

theorem takeBeforeBreakLastNe : ∀ s : Text, containsSub sectionBreak s = true →
    (takeBefore sectionBreak s).getLast? ≠ some '\n'
  | [], h => by
    rw [containsSub] at h
    simp [sectionBreak, List.isPrefixOf] at h
  | c :: t, h => by
    rw [takeBefore]
    by_cases hp : sectionBreak.isPrefixOf (c :: t) = true
    · rw [if_pos hp]
      simp
    · rw [if_neg hp]
      have hc : containsSub sectionBreak t = true := by
        rw [containsSub, Bool.or_eq_true] at h
        rcases h with h1 | h1
        · exact absurd h1 hp
        · exact h1
      cases hw : takeBefore sectionBreak t with
      | nil =>
        intro hlast
        have hcn : c = '\n' := by simpa using hlast
        have htne : t ≠ [] := by
          intro hteq
          rw [hteq, containsSub] at hc
          simp [sectionBreak, List.isPrefixOf] at hc
        obtain ⟨d, t', rfl⟩ : ∃ d t', t = d :: t' := by
          cases t with
          | nil => exact absurd rfl htne
          | cons d t' => exact ⟨d, t', rfl⟩
        rw [takeBefore] at hw
        by_cases hp2 : sectionBreak.isPrefixOf (d :: t') = true
        · obtain ⟨u, hu⟩ := (isPrefixOfIff _ _).mp hp2
          have hd : d = '\n' := by
            have hh := congrArg List.head? hu
            simp [sectionBreak] at hh
            exact hh.symm
          apply hp
          rw [hcn, hd] at hp ⊢
          rw [isPrefixOfIff]
          exact ⟨t', by simp [sectionBreak]⟩
        · rw [if_neg hp2] at hw
          exact (List.cons_ne_nil _ _ hw).elim
      | cons e w =>
        rw [List.getLast?_cons_cons, ← hw]
        exact takeBeforeBreakLastNe t hc

theorem sufOfBreak {t : Text} (h : t <:+ sectionBreak) (hne : t ≠ []) :
    t = ['\n'] ∨ t = sectionBreak := by
  obtain ⟨u, hu⟩ := h
  cases u with
  | nil =>
    right
    simpa using hu
  | cons a u' =>
    rw [List.cons_append] at hu
    injection hu with h1 h2
    cases u' with
    | nil =>
      left
      simpa using h2
    | cons b u'' =>
      rw [List.cons_append] at h2
      injection h2 with h3 h4
      have := List.append_eq_nil.mp h4
      exact absurd this.2 hne

theorem breakPrefConsFalse {c : Char} (hc : c ≠ '\n') (t : Text) :
    sectionBreak.isPrefixOf (c :: t) = false := by
  have hb : sectionBreak = '\n' :: ['\n'] := rfl
  rw [hb]
  exact isPrefixOfConsFalse (beq_eq_false_iff_ne.mpr (fun he => hc he.symm))

theorem takeBeforeBreakAppend {p : Text} (hnc : containsSub sectionBreak p = false)
    (hlast : p.getLast? ≠ some '\n') (z : Text) :
    takeBefore sectionBreak (p ++ sectionBreak ++ z) = p := by
  have hcond : ∀ t, t ≠ [] → t <:+ p →
      sectionBreak.isPrefixOf (t ++ (sectionBreak ++ z)) = false := by
    intro t htne hts
    cases t with
    | nil => exact absurd rfl htne
    | cons c t' =>
      cases t' with
      | nil =>
        obtain ⟨u, hu⟩ := hts
        have hcl : p.getLast? = some c := by
          rw [← hu]
          exact List.getLast?_concat u
        have hc : c ≠ '\n' := fun he => hlast (by rw [hcl, he])
        rw [List.cons_append]
        exact breakPrefConsFalse hc _
      | cons d t'' =>
        by_contra hq
        have hq1 : sectionBreak <+: (c :: d :: t'') ++ (sectionBreak ++ z) :=
          (isPrefixOfIff _ _).mp (Bool.not_eq_false _ ▸ hq)
        have hq2 : sectionBreak <+: c :: d :: t'' := by
          refine prefAppendLeft hq1 ?_
          simp [sectionBreak]
        have hq3 : containsSub sectionBreak p = true :=
          containsOfInfix hts.isInfix ((containsIffIsInfix _ _).mpr hq2.isInfix)
        exact absurd hq3 (by simp [hnc])
  rw [List.append_assoc, takeBeforeAppendNoStart sectionBreak (sectionBreak ++ z) p hcond]
  have h0 : takeBefore sectionBreak (sectionBreak ++ z) = [] := by
    have hform : sectionBreak ++ z = '\n' :: ('\n' :: z) := rfl
    have hpz : sectionBreak.isPrefixOf ('\n' :: ('\n' :: z)) = true := by
      rw [isPrefixOfIff]
      exact ⟨z, rfl⟩
    rw [hform, takeBefore, if_pos hpz]
  rw [h0, List.append_nil]

theorem takeBeforeMarkerAppend {p : Text} (hnm : containsSub humanMarker p = false) (q : Text) :
    takeBefore humanMarker ((p ++ sectionBreak) ++ q) =
      (p ++ sectionBreak) ++ takeBefore humanMarker q := by
  apply takeBeforeAppendNoStart humanMarker q (p ++ sectionBreak)
  intro t htne hts
  by_cases hlen : t.length ≤ 2
  · have hts2 : t <:+ sectionBreak := by
      refine sufAppendRight hts ?_
      simpa [sectionBreak] using hlen
    rcases sufOfBreak hts2 htne with h1 | h1
    · rw [h1, List.cons_append, List.nil_append]
      exact markerPrefFalseOfWs (by decide) q
    · rw [h1]
      have hform : sectionBreak ++ q = '\n' :: ('\n' :: q) := rfl
      rw [hform]
      exact markerPrefFalseOfWs (by decide) _
  · push_neg at hlen
    obtain ⟨t0, ht0s, ht0e⟩ := sufSplitLong hts (le_of_lt (by simpa [sectionBreak] using hlen))
    have ht0ne : t0 ≠ [] := by
      intro h0
      rw [h0, List.nil_append] at ht0e
      rw [ht0e] at hlen
      simp [sectionBreak] at hlen
    rw [ht0e, List.append_assoc]
    have hform : sectionBreak ++ q = '\n' :: ('\n' :: q) := rfl
    rw [hform]
    by_contra hq
    have hq1 : humanMarker <+: t0 ++ '\n' :: ('\n' :: q) :=
      (isPrefixOfIff _ _).mp (Bool.not_eq_false _ ▸ hq)
    by_cases hl0 : t0.length < humanMarker.length
    · have hmem : '\n' ∈ humanMarker := memOfPrefAppendCons hq1 hl0
      exact absurd hmem (by decide)
    · push_neg at hl0
      have hq2 : humanMarker <+: t0 := prefAppendLeft hq1 hl0
      have hq3 : containsSub humanMarker p = true :=
        containsOfInfix ht0s.isInfix ((containsIffIsInfix _ _).mpr hq2.isInfix)
      exact absurd hq3 (by simp [hnm])

/-- The sanitizer is definitionally the composition of its two truncation
stages applied to the stripped raw text. -/
theorem sanitizeStages (raw : Text) :
    sanitize raw = breakTruncate (markerTruncate (pyStrip raw)) := rfl

theorem stripPipeline (r0 : Text) (hleft : stripLeft r0 = r0)
    (h1 : containsSub sectionBreak r0 = true)
    (h2 : containsSub humanMarker (takeBefore sectionBreak r0) = false) :
    breakTruncate (markerTruncate r0) = pyStrip (takeBefore sectionBreak r0) := by
  by_cases hm : containsSub humanMarker r0 = true
  · obtain ⟨q, hsplit⟩ := takeBeforeSplit sectionBreak r0 h1
    set p := takeBefore sectionBreak r0 with hp
    set y := takeBefore humanMarker q with hy
    have hnb : containsSub sectionBreak p = false :=
      notContainsTakeBefore sectionBreak (by decide) r0
    have hlast : p.getLast? ≠ some '\n' := takeBeforeBreakLastNe r0 h1
    obtain ⟨c, p', hpc⟩ : ∃ c p', p = c :: p' := by
      cases hpp : p with
      | nil =>
        exfalso
        rw [hpp, List.nil_append] at hsplit
        have hr : r0 = '\n' :: ('\n' :: q) := hsplit
        have hsl : stripLeft r0 = '\n' :: ('\n' :: q) := by rw [hleft, hr]
        exact absurd (stripLeftHeadFalse r0 hsl) (by decide)
      | cons c p' => exact ⟨c, p', rfl⟩
    have hcws : isPySpace c = false := by
      obtain ⟨u, hu⟩ := takeBeforePref sectionBreak r0
      rw [← hp, hpc] at hu
      have hsl : stripLeft r0 = c :: (p' ++ u) := by
        rw [hleft, ← hu, List.cons_append]
      exact stripLeftHeadFalse r0 hsl
    have hx : takeBefore humanMarker r0 = (p ++ sectionBreak) ++ y := by
      rw [hsplit]
      exact takeBeforeMarkerAppend h2 q
    have hr1 : pyStrip (takeBefore humanMarker r0) = stripRight (takeBefore humanMarker r0) := by
      have hcform : ((c :: p') ++ sectionBreak) ++ y = c :: ((p' ++ sectionBreak) ++ y) := by
        simp
      rw [hx, hpc, hcform]
      exact pyStripOfNoWsHead hcws _
    rw [markerTruncate, if_pos hm]
    by_cases hsw : stripRight (sectionBreak ++ y) = []
    · have hall : ∀ d ∈ sectionBreak ++ y, isPySpace d = true := (stripRightEqNilIff _).mp hsw
      have hr1v : stripRight (takeBefore humanMarker r0) = stripRight p := by
        rw [hx, List.append_assoc]
        exact stripRightAppendWs hall p
      have hnb2 : containsSub sectionBreak (stripRight p) = false := by
        rw [Bool.eq_false_iff]
        intro hq
        exact absurd (containsOfInfix (stripRightPref p).isInfix hq) (by simp [hnb])
      rw [hr1, hr1v, breakTruncate, if_neg (by simp [hnb2])]
      rw [hpc, pyStripOfNoWsHead hcws]
    · have hr1v : stripRight (takeBefore humanMarker r0) = (p ++ sectionBreak) ++ stripRight y := by
        have hyne : stripRight y ≠ [] := by
          intro h0
          apply hsw
          rw [stripRightEqNilIff]
          intro d hd
          rcases List.mem_append.mp hd with hd1 | hd1
          · have hdn : d = '\n' := by simpa [sectionBreak] using hd1
            rw [hdn]
            decide
          · exact (stripRightEqNilIff y).mp h0 d hd1
        rw [hx, List.append_assoc, stripRightAppendNe hsw p, stripRightAppendNe hyne,
          ← List.append_assoc]
      have hcb : containsSub sectionBreak ((p ++ sectionBreak) ++ stripRight y) = true := by
        rw [containsIffIsInfix]
        exact ⟨p, stripRight y, rfl⟩
      have htb : takeBefore sectionBreak ((p ++ sectionBreak) ++ stripRight y) = p :=
        takeBeforeBreakAppend hnb hlast (stripRight y)
      rw [hr1, hr1v, breakTruncate, if_pos hcb, htb]
  · rw [markerTruncate, if_neg hm, breakTruncate, if_pos h1]

/-! ### Facts about rendering and the transcript invariant -/

theorem joinConcat : ∀ (xs : List Text) (y : Text), xs ≠ [] →
    joinNL (xs ++ [y]) = joinNL xs ++ '\n' :: y
  | [], _, h => absurd rfl h
  | [l], y, _ => by simp [joinNL]
  | l :: l' :: ls, y, _ => by
    show joinNL (l :: (l' :: (ls ++ [y]))) = joinNL (l :: l' :: ls) ++ '\n' :: y
    rw [joinNL]
    have h2 : l' :: (ls ++ [y]) = (l' :: ls) ++ [y] := rfl
    rw [h2, joinConcat (l' :: ls) y (by simp), joinNL]
    simp

theorem breakTruncateInfixOf (s : Text) : breakTruncate s <:+: s := by
  rw [breakTruncate]
  split
  · exact (pyStripIsInfixOf _).trans (takeBeforePref sectionBreak s).isInfix
  · exact List.infix_refl _

theorem notContainsOfInfix {sep u v : Text} (h : u <:+: v) (hc : containsSub sep v = false) :
    containsSub sep u = false := by
  rw [Bool.eq_false_iff]
  intro hq
  exact absurd (containsOfInfix h hq) (by simp [hc])

theorem rolePSucc (n : Nat) : roleP (n + 1) = roleP n ++ [roleAt n] := by
  rw [roleP, roleP, List.range_succ, List.map_append]
  rfl

theorem altAppendHuman {h : List Turn} (hinv : entryInv h) (c : Text) :
    alternatesHuman (h ++ [⟨Role.human, c⟩]) ∧
      lastRole (h ++ [⟨Role.human, c⟩]) = some Role.human := by
  obtain ⟨halt, heven⟩ := hinv
  constructor
  · rw [alternatesHuman, List.map_append, List.length_append]
    simp only [List.map_cons, List.map_nil, List.length_cons, List.length_nil, Nat.zero_add]
    rw [rolePSucc, halt, roleAt, if_pos heven]
  · rw [lastRole, List.map_append]
    simp [List.getLast?_concat]

theorem entryInvAppendPair {h : List Turn} (hinv : entryInv h) (c d : Text) :
    entryInv ((h ++ [⟨Role.human, c⟩]) ++ [⟨Role.assistant, d⟩]) := by
  obtain ⟨halt, heven⟩ := hinv
  constructor
  · rw [alternatesHuman]
    simp only [List.map_append, List.length_append, List.map_cons, List.map_nil,
      List.length_cons, List.length_nil, Nat.zero_add]
    rw [rolePSucc, rolePSucc, halt, roleAt, roleAt, if_pos heven, if_neg (by omega)]
  · simp only [List.length_append, List.length_cons, List.length_nil, Nat.zero_add]
    omega

theorem entryInvNil : entryInv [] := by
  constructor
  · rw [alternatesHuman]
    rfl
  · rfl

/-! ### Step equations for the two loops -/

theorem interactiveRunNil (gen : Text → Text) (h : List Turn) :
    interactiveRun gen [] h = (h, []) := rfl

theorem interactiveRunQuit (gen : Text → Text) (raw : Text) (rest : List Text) (h : List Turn)
    (hq : isQuitCmd (pyStrip raw) = true) :
    interactiveRun gen (raw :: rest) h = (h, []) := by
  simp [interactiveRun, hq]

theorem interactiveRunClear (gen : Text → Text) (raw : Text) (rest : List Text) (h : List Turn)
    (hq : isQuitCmd (pyStrip raw) = false) (hc : isClearCmd (pyStrip raw) = true) :
    interactiveRun gen (raw :: rest) h = interactiveRun gen rest [] := by
  simp [interactiveRun, hq, hc]

theorem interactiveRunEmpty (gen : Text → Text) (raw : Text) (rest : List Text) (h : List Turn)
    (hq : isQuitCmd (pyStrip raw) = false) (hc : isClearCmd (pyStrip raw) = false)
    (he : (pyStrip raw).isEmpty = true) :
    interactiveRun gen (raw :: rest) h = interactiveRun gen rest h := by
  simp [interactiveRun, hq, hc, he]

theorem interactiveRunTalk (gen : Text → Text) (raw : Text) (rest : List Text) (h : List Turn)
    (hq : isQuitCmd (pyStrip raw) = false) (hc : isClearCmd (pyStrip raw) = false)
    (he : (pyStrip raw).isEmpty = false) :
    interactiveRun gen (raw :: rest) h =
      ((interactiveRun gen rest
          ((h ++ [⟨Role.human, pyStrip raw⟩]) ++
            [⟨Role.assistant, sanitize (gen (renderT (h ++ [⟨Role.human, pyStrip raw⟩])))⟩])).1,
        (renderT (h ++ [⟨Role.human, pyStrip raw⟩]), h ++ [⟨Role.human, pyStrip raw⟩]) ::
          (interactiveRun gen rest
            ((h ++ [⟨Role.human, pyStrip raw⟩]) ++
              [⟨Role.assistant, sanitize (gen (renderT (h ++ [⟨Role.human, pyStrip raw⟩])))⟩])).2) := by
  simp [interactiveRun, hq, hc, he]

theorem cannedRunNil (gen : Text → Text) (h : List Turn) :
    cannedRun gen [] h = (h, []) := rfl

theorem cannedRunCons (gen : Text → Text) (input : Text) (rest : List Text) (h : List Turn) :
    cannedRun gen (input :: rest) h =
      ((cannedRun gen rest
          ((h ++ [⟨Role.human, input⟩]) ++
            [⟨Role.assistant, sanitize (gen (renderT (h ++ [⟨Role.human, input⟩])))⟩])).1,
        (renderT (h ++ [⟨Role.human, input⟩]), h ++ [⟨Role.human, input⟩]) ::
          (cannedRun gen rest
            ((h ++ [⟨Role.human, input⟩]) ++
              [⟨Role.assistant, sanitize (gen (renderT (h ++ [⟨Role.human, input⟩])))⟩])).2) := rfl

/-! ### The loop invariants -/

theorem cannedRunInv (gen : Text → Text) : ∀ (inputs : List Text) (h : List Turn), entryInv h →
    entryInv (cannedRun gen inputs h).1 ∧
    ∀ pr ∈ (cannedRun gen inputs h).2, pr.1 = renderT pr.2 ∧ alternatesHuman pr.2 ∧
      lastRole pr.2 = some Role.human
  | [], h, hinv => by
    rw [cannedRunNil]
    exact ⟨hinv, by simp⟩
  | input :: rest, h, hinv => by
    rw [cannedRunCons]
    have hpair := entryInvAppendPair hinv input
      (sanitize (gen (renderT (h ++ [⟨Role.human, input⟩]))))
    have hrec := cannedRunInv gen rest _ hpair
    refine ⟨hrec.1, ?_⟩
    intro pr hpr
    rcases List.mem_cons.mp hpr with h1 | h1
    · rw [h1]
      exact ⟨rfl, (altAppendHuman hinv input).1, (altAppendHuman hinv input).2⟩
    · exact hrec.2 pr h1

theorem interactiveRunInv (gen : Text → Text) : ∀ (script : List Text) (h : List Turn),
    entryInv h →
    entryInv (interactiveRun gen script h).1 ∧
    ∀ pr ∈ (interactiveRun gen script h).2, pr.1 = renderT pr.2 ∧ alternatesHuman pr.2 ∧
      lastRole pr.2 = some Role.human
  | [], h, hinv => by
    rw [interactiveRunNil]
    exact ⟨hinv, by simp⟩
  | raw :: rest, h, hinv => by
    by_cases hq : isQuitCmd (pyStrip raw) = true
    · rw [interactiveRunQuit gen raw rest h hq]
      exact ⟨hinv, by simp⟩
    · have hq' : isQuitCmd (pyStrip raw) = false := by simpa using hq
      by_cases hc : isClearCmd (pyStrip raw) = true
      · rw [interactiveRunClear gen raw rest h hq' hc]
        exact interactiveRunInv gen rest [] entryInvNil
      · have hc' : isClearCmd (pyStrip raw) = false := by simpa using hc
        by_cases he : (pyStrip raw).isEmpty = true
        · rw [interactiveRunEmpty gen raw rest h hq' hc' he]
          exact interactiveRunInv gen rest h hinv
        · have he' : (pyStrip raw).isEmpty = false := by simpa using he
          rw [interactiveRunTalk gen raw rest h hq' hc' he']
          have hpair := entryInvAppendPair hinv (pyStrip raw)
            (sanitize (gen (renderT (h ++ [⟨Role.human, pyStrip raw⟩]))))
          have hrec := interactiveRunInv gen rest _ hpair
          refine ⟨hrec.1, ?_⟩
          intro pr hpr
          rcases List.mem_cons.mp hpr with h1 | h1
          · rw [h1]
            exact ⟨rfl, (altAppendHuman hinv (pyStrip raw)).1,
              (altAppendHuman hinv (pyStrip raw)).2⟩
          · exact hrec.2 pr h1

/-! ### The claims -/

/-- C1: for every nonempty sequence of appended Turns, the rendered prompt
equals the newline-separated concatenation of the line `"{role}: {content}"`
of each turn in append order, with the trailing cue line `"Assistant:"`
appended for the next inference call. (The loops render a prompt only right
after appending a Human turn, so the rendered sequence is never empty; the
empty case is settled under C2.) -/
theorem C1_render_lines_and_cue (turns : List Turn) (hne : turns ≠ []) :
    renderT turns = joinNL (turns.map turnLine ++ [cueText]) := by
  rw [renderT, render, joinConcat (turns.map turnLine) cueText (by simpa using hne)]

/-- Witness for C1 at a concrete two-turn transcript. -/
theorem C1_render_lines_and_cue_witness :
    ([⟨Role.human, ("Hi").data⟩, ⟨Role.assistant, ("Hello!").data⟩] : List Turn) ≠ [] ∧
    renderT [⟨Role.human, ("Hi").data⟩, ⟨Role.assistant, ("Hello!").data⟩] =
      joinNL (([⟨Role.human, ("Hi").data⟩,
        (⟨Role.assistant, ("Hello!").data⟩ : Turn)]).map turnLine ++ [cueText]) :=
  ⟨by decide, C1_render_lines_and_cue _ (by decide)⟩

/-- C2 counterexample: rendering the empty Transcript does not yield exactly
the cue line `"Assistant:"` — the code computes
`"\n".join([]) + "\nAssistant:"`, which carries a leading newline. -/
theorem C2_empty_render_cex : renderT [] ≠ cueText := by decide

/-- C2 (amended): rendering an empty Transcript yields a single newline
followed by the cue `"Assistant:"` — no prior turns, but one empty line
precedes the cue. (In the loops an empty Transcript is never rendered: a
Human turn is appended before every render.) -/
theorem C2_empty_render : renderT [] = '\n' :: cueText := by decide

/-- C3 counterexample: for the raw text `"a\n\nb Human: x"`, the sanitized
output is not the whitespace-trimmed text preceding the `"Human:"` marker
(`"a\n\nb"`): the subsequent break-truncation stage shortens it to `"a"`. -/
theorem C3_marker_cex :
    sanitize (("a\n\nb Human: x").data) ≠
      pyStrip (takeBefore humanMarker (("a\n\nb Human: x").data)) := by decide

/-- C3 (amended): for every raw generated text containing the human-turn
marker `"Human:"`, the sanitized output excludes everything from the first
occurrence of the marker onward: no occurrence of the marker survives, the
output is drawn entirely from the text preceding the marker, and it equals
the whitespace-trimmed text preceding the marker as further processed by
the break-truncation stage. -/
theorem C3_marker_truncation (raw : Text) (hm : containsSub humanMarker raw = true) :
    containsSub humanMarker (sanitize raw) = false ∧
    sanitize raw <:+: takeBefore humanMarker (pyStrip raw) ∧
    sanitize raw = breakTruncate (pyStrip (takeBefore humanMarker (pyStrip raw))) := by
  have hm0 : containsSub humanMarker (pyStrip raw) = true := by
    rw [containsMarkerPyStrip raw]
    exact hm
  have heq : sanitize raw = breakTruncate (pyStrip (takeBefore humanMarker (pyStrip raw))) := by
    rw [sanitizeStages, markerTruncate, if_pos hm0]
  have hinf : sanitize raw <:+: takeBefore humanMarker (pyStrip raw) := by
    rw [heq]
    exact (breakTruncateInfixOf _).trans (pyStripIsInfixOf _)
  exact ⟨notContainsOfInfix hinf (notContainsTakeBefore humanMarker (by decide) (pyStrip raw)),
    hinf, heq⟩

/-- Witness for C3 at a concrete raw text containing the marker. -/
theorem C3_marker_truncation_witness :
    containsSub humanMarker (("Sure! Human: next question").data) = true ∧
    (containsSub humanMarker (sanitize (("Sure! Human: next question").data)) = false ∧
     sanitize (("Sure! Human: next question").data) <:+:
       takeBefore humanMarker (pyStrip (("Sure! Human: next question").data)) ∧
     sanitize (("Sure! Human: next question").data) =
       breakTruncate (pyStrip (takeBefore humanMarker
         (pyStrip (("Sure! Human: next question").data))))) :=
  ⟨by decide, C3_marker_truncation _ (by decide)⟩

/-- C4 counterexample: the raw text `"\n\nabc"` contains a double-newline
(and no human-turn marker), yet the sanitized output is `"abc"`, not the
trimmed text preceding the first break (which is empty): the code strips
the raw text before looking for the break, so a break inside leading
whitespace is not a boundary, and trimming is not only a final step. -/
theorem C4_break_cex :
    sanitize (("\n\nabc").data) ≠
      pyStrip (takeBefore sectionBreak (("\n\nabc").data)) := by decide

/-- C4 (amended): for every raw generated text whose whitespace-trimmed form
contains a double-newline section break, with no human-turn marker before
the first such break, the sanitized output stops before that break: it is
the text of the trimmed raw preceding its first double-newline, trimmed
again as the final step. (The raw text is stripped before break detection,
so a break lying wholly inside leading or trailing whitespace does not
count as a boundary.) -/
theorem C4_break_truncation (raw : Text)
    (hb : containsSub sectionBreak (pyStrip raw) = true)
    (hm : containsSub humanMarker (takeBefore sectionBreak (pyStrip raw)) = false) :
    sanitize raw = pyStrip (takeBefore sectionBreak (pyStrip raw)) := by
  rw [sanitizeStages]
  exact stripPipeline (pyStrip raw) (stripLeftOfPyStrip raw) hb hm

/-- Witness for C4 at a concrete raw text with a break followed by a marker. -/
theorem C4_break_truncation_witness :
    containsSub sectionBreak (pyStrip (("I am fine.\n\nHuman: more").data)) = true ∧
    containsSub humanMarker
      (takeBefore sectionBreak (pyStrip (("I am fine.\n\nHuman: more").data))) = false ∧
    sanitize (("I am fine.\n\nHuman: more").data) =
      pyStrip (takeBefore sectionBreak (pyStrip (("I am fine.\n\nHuman: more").data))) :=
  ⟨by decide, by decide, C4_break_truncation _ (by decide) (by decide)⟩

/-- C5: for every raw generated text in which both the human-turn marker and
a double-newline appear (in either order), the sanitizer applies
marker-truncation first and then break-truncation on the result of the
marker-truncation, both stages operating after the initial strip. -/
theorem C5_truncation_order (raw : Text)
    (hm : containsSub humanMarker raw = true)
    (hb : containsSub sectionBreak raw = true) :
    sanitize raw = breakTruncate (markerTruncate (pyStrip raw)) :=
  sanitizeStages raw

/-- Witness for C5 at a concrete raw text containing both markers. -/
theorem C5_truncation_order_witness :
    containsSub humanMarker (("Hi there\n\nHuman: again").data) = true ∧
    containsSub sectionBreak (("Hi there\n\nHuman: again").data) = true ∧
    sanitize (("Hi there\n\nHuman: again").data) =
      breakTruncate (markerTruncate (pyStrip (("Hi there\n\nHuman: again").data))) :=
  ⟨by decide, by decide, C5_truncation_order _ (by decide) (by decide)⟩

/-- C6: if the external model fails to initialize, the driver reports the
failure with the exception message and terminates immediately: the outcome
is `initFailed` carrying that message, and — for any mode choice and any
input script — neither the canned loop nor the interactive loop runs; the
single initialization result is consumed once, with no retry and no
degraded mode. -/
theorem C6_init_failure (e : Text) (modeInp : Option Text) (script : List Text) :
    mainOutcome (Except.error e) modeInp script = DemoOutcome.initFailed e ∧
    (∀ f c, mainOutcome (Except.error e) modeInp script ≠ DemoOutcome.ranCanned f c) ∧
    (∀ f c, mainOutcome (Except.error e) modeInp script ≠ DemoOutcome.ranInteractive f c) := by
  refine ⟨rfl, ?_, ?_⟩ <;> intro f c <;> simp [mainOutcome]

/-- C7: menu selection recovers from invalid input by substituting the
default: each of the entered lines `""`, `"9"` and `"abc"` resolves model
selection to menu entry 1 (`optModel`) and mode selection to the canned
demo, while the entered line `"2"` for mode selection makes the driver run
the interactive loop. -/
theorem C7_menu_defaults :
    selectModel (some (("").data)) = optModel ∧
    selectModel (some (("9").data)) = optModel ∧
    selectModel (some (("abc").data)) = optModel ∧
    modeIsInteractive (menuChoiceOf (some (("").data))) = false ∧
    modeIsInteractive (menuChoiceOf (some (("9").data))) = false ∧
    modeIsInteractive (menuChoiceOf (some (("abc").data))) = false ∧
    modeIsInteractive (menuChoiceOf (some (("2").data))) = true ∧
    (∀ gen script, mainOutcome (Except.ok gen) (some (("2").data)) script =
      DemoOutcome.ranInteractive (interactiveRun gen script []).1
        (interactiveRun gen script []).2) ∧
    (∀ gen script, mainOutcome (Except.ok gen) (some (("abc").data)) script =
      DemoOutcome.ranCanned (cannedRun gen cannedInputs []).1
        (cannedRun gen cannedInputs []).2) := by
  have h2 : modeIsInteractive (menuChoiceOf (some (("2").data))) = true := by decide
  have habc : modeIsInteractive (menuChoiceOf (some (("abc").data))) = false := by decide
  refine ⟨by decide, by decide, by decide, by decide, by decide, by decide, h2, ?_, ?_⟩
  · intro gen script
    simp [mainOutcome, h2]
  · intro gen script
    simp [mainOutcome, habc]

/-- C8: interactive-loop input handling, for any transcript state and any
remaining script: the input lines `"quit"`, `"exit"` and `"q"` terminate
the loop, returning the current transcript with no further inference calls;
`"clear"` empties the transcript and the loop continues over the rest of
the script; an empty input line is ignored, the loop re-prompting with the
transcript unchanged; and end of input (`EOFError`, and the identically
handled `KeyboardInterrupt`) terminates the loop gracefully. -/
theorem C8_interactive_commands (gen : Text → Text) (rest : List Text) (h : List Turn) :
    interactiveRun gen (("quit").data :: rest) h = (h, []) ∧
    interactiveRun gen (("exit").data :: rest) h = (h, []) ∧
    interactiveRun gen (("q").data :: rest) h = (h, []) ∧
    interactiveRun gen (("clear").data :: rest) h = interactiveRun gen rest [] ∧
    interactiveRun gen (("").data :: rest) h = interactiveRun gen rest h ∧
    interactiveRun gen [] h = (h, []) := by
  refine ⟨?_, ?_, ?_, ?_, ?_, rfl⟩
  · exact interactiveRunQuit gen _ rest h (by decide)
  · exact interactiveRunQuit gen _ rest h (by decide)
  · exact interactiveRunQuit gen _ rest h (by decide)
  · exact interactiveRunClear gen _ rest h (by decide) (by decide)
  · exact interactiveRunEmpty gen _ rest h (by decide) (by decide) (by decide)

/-- C9: in both the canned and the interactive loop, starting from any
transcript satisfying the entry invariant — in particular the empty
transcript each loop starts with — the final transcript again satisfies it,
and every prompt sent to inference is rendered from a transcript that
alternates Human/Assistant starting with Human and whose most recent turn
is a Human turn. -/
theorem C9_transcript_invariant (gen : Text → Text) (inputs script : List Text)
    (h0 : List Turn) (hinv : entryInv h0) :
    entryInv (cannedRun gen inputs h0).1 ∧
    (∀ pr ∈ (cannedRun gen inputs h0).2, pr.1 = renderT pr.2 ∧ alternatesHuman pr.2 ∧
      lastRole pr.2 = some Role.human) ∧
    entryInv (interactiveRun gen script h0).1 ∧
    (∀ pr ∈ (interactiveRun gen script h0).2, pr.1 = renderT pr.2 ∧ alternatesHuman pr.2 ∧
      lastRole pr.2 = some Role.human) := by
  obtain ⟨hc1, hc2⟩ := cannedRunInv gen inputs h0 hinv
  obtain ⟨hi1, hi2⟩ := interactiveRunInv gen script h0 hinv
  exact ⟨hc1, hc2, hi1, hi2⟩

/-- Witness for C9 at the empty starting transcript, the canned inputs and a
one-line interactive script. -/
theorem C9_transcript_invariant_witness :
    entryInv ([] : List Turn) ∧
    (entryInv (cannedRun (fun _ => []) cannedInputs []).1 ∧
     (∀ pr ∈ (cannedRun (fun _ => []) cannedInputs []).2, pr.1 = renderT pr.2 ∧
       alternatesHuman pr.2 ∧ lastRole pr.2 = some Role.human) ∧
     entryInv (interactiveRun (fun _ => []) [("hello there").data] []).1 ∧
     (∀ pr ∈ (interactiveRun (fun _ => []) [("hello there").data] []).2,
       pr.1 = renderT pr.2 ∧ alternatesHuman pr.2 ∧ lastRole pr.2 = some Role.human)) :=
  ⟨entryInvNil,
    C9_transcript_invariant (fun _ => []) cannedInputs [("hello there").data] [] entryInvNil⟩

/-- C10: command recognition in the interactive loop is case-insensitive:
any input line whose stripped and lowercased form is one of the quit
commands terminates the loop, and any whose stripped and lowercased form is
`"clear"` empties the transcript and continues — the input is lowercased
before comparison, so capitalizations such as `"QUIT"` or `"Clear"` act as
commands rather than as conversational turns. -/
theorem C10_case_insensitive_commands (gen : Text → Text) (raw : Text) (rest : List Text)
    (h : List Turn) :
    (quitCommands.contains (pyLower (pyStrip raw)) = true →
      interactiveRun gen (raw :: rest) h = (h, [])) ∧
    (pyLower (pyStrip raw) = ("clear").data →
      interactiveRun gen (raw :: rest) h = interactiveRun gen rest []) := by
  constructor
  · intro hq
    exact interactiveRunQuit gen raw rest h hq
  · intro hcl
    have hc : isClearCmd (pyStrip raw) = true := by
      rw [isClearCmd, hcl]
      simp
    have hq : isQuitCmd (pyStrip raw) = false := by
      rw [isQuitCmd, hcl]
      decide
    exact interactiveRunClear gen raw rest h hq hc

/-- Witness for C10 at the capitalized inputs `"QUIT"` and `"Clear"`. -/
theorem C10_case_insensitive_commands_witness :
    (quitCommands.contains (pyLower (pyStrip (("QUIT").data))) = true ∧
      interactiveRun (fun _ => []) [("QUIT").data] [] = ([], [])) ∧
    (pyLower (pyStrip (("Clear").data)) = ("clear").data ∧
      interactiveRun (fun _ => []) [("Clear").data, ("q").data] [⟨Role.human, ("x").data⟩] =
        interactiveRun (fun _ => []) [("q").data] []) :=
  ⟨⟨by decide,
      (C10_case_insensitive_commands (fun _ => []) (("QUIT").data) [] []).1 (by decide)⟩,
   ⟨by decide,
      (C10_case_insensitive_commands (fun _ => []) (("Clear").data) [("q").data]
        [⟨Role.human, ("x").data⟩]).2 (by decide)⟩⟩
